import Mathlib

/-!
Verification of the acrion image library (header-only C++) against its
natural-language specification. The C++ templates are embedded shallowly:
unsigned sample types of bit width `w` become `Nat` with explicit `% 2 ^ w`
where the C++ arithmetic wraps, `double` quantities become exact rationals
(the standard idealisation of the floating-point arithmetic; no claim here
depends on rounding of binary floating point), raw pixel memory becomes a
total function from indices to sample values, and the C++ exceptions become
`Except`/`Option` error values.

Sources embedded: `color.hpp` (class `Color`), `bitmap_data.hpp`
(class `BitmapData`), `interpolation.hpp` (`interpolation::Do`),
`utility.hpp` and `mixable_scalar.hpp` (only the parts the claims touch).
-/

namespace AcrionImage

/-- Model of `std::llround` on exact rationals: round half away from zero. -/
def lroundQ (q : ℚ) : ℤ :=
  if 0 ≤ q then ⌊q + 1 / 2⌋ else -⌊-q + 1 / 2⌋

/-- The five sample types `BitmapData<T>` is instantiated at:
`uint8_t`, `uint16_t`, `uint32_t`, `uint64_t`, `double`. -/
inductive SampleType where
  | u8 | u16 | u32 | u64 | f64
  deriving DecidableEq

/-- `sizeof(T)` for each sample type. -/
def sizeofSample : SampleType → ℕ
  | .u8 => 1
  | .u16 => 2
  | .u32 => 4
  | .u64 => 8
  | .f64 => 8

/-- `std::is_floating_point<T>::value`. -/
def sampleIsFloat : SampleType → Bool
  | .f64 => true
  | _ => false

/-- `BitmapData<T>::Depth()`:
`(int)sizeof(T) * (std::is_floating_point<T>::value ? -1 : 1)`. -/
def depthOf (s : SampleType) : ℤ :=
  (sizeofSample s : ℤ) * (if sampleIsFloat s then -1 else 1)

/-- `std::numeric_limits<T>::min()` as an exact rational: 0 for the unsigned
integer types, and the smallest positive normal double `2 ^ (-1022)` for
`double`. -/
def numericLimitsMin : SampleType → ℚ
  | .f64 => 1 / 2 ^ 1022
  | _ => 0

/-- `std::numeric_limits<T>::max()` as an exact rational: `2 ^ bits - 1` for
the unsigned integer types, and `DBL_MAX = 2 ^ 1024 - 2 ^ 971` for `double`. -/
def numericLimitsMax : SampleType → ℚ
  | .u8 => 2 ^ 8 - 1
  | .u16 => 2 ^ 16 - 1
  | .u32 => 2 ^ 32 - 1
  | .u64 => 2 ^ 64 - 1
  | .f64 => 2 ^ 1024 - 2 ^ 971

/-- `std::numeric_limits<T>::lowest()`: 0 for the unsigned integer types and
`-DBL_MAX` for `double`. -/
def numericLimitsLowest : SampleType → ℚ
  | .f64 => -(2 ^ 1024 - 2 ^ 971)
  | _ => 0

/-- The member initialiser of `BitmapData<T>::_minDisplayedBrightness`,
which is the brace-initialiser `{0}` for every sample type. -/
def defaultMinDisplayedBrightness (_ : SampleType) : ℚ := 0

/-- The member initialiser of `BitmapData<T>::_maxDisplayedBrightness`,
which is `{std::numeric_limits<T>::max()}`. -/
def defaultMaxDisplayedBrightness (s : SampleType) : ℚ := numericLimitsMax s

/-! ### `Color<T>` for unsigned integer `T` of bit width `w`

Channel values are naturals; the C++ unsigned arithmetic is taken modulo
`2 ^ w`. -/

/-- `Color<T>` for an unsigned integer sample type: the four channel values
`_red`, `_green`, `_blue`, `_alpha`. -/
structure ColorN where
  red : ℕ
  green : ℕ
  blue : ℕ
  alpha : ℕ
  deriving DecidableEq, Repr

/-- One channel of `Color<T>::operator-=(Color rhs)`: the C++ statement
`_red -= rhs._red` on an unsigned `T` of `w` bits, i.e. subtraction modulo
`2 ^ w`. For `u, v < 2 ^ w` the value `(2 ^ w + u - v) % 2 ^ w` is exactly
the C++ wrap-around difference. -/
def wrapSub (w u v : ℕ) : ℕ :=
  (2 ^ w + u - v) % 2 ^ w

/-- `Color<T>::operator-=(Color rhs)` from color.hpp: each of red, green and
blue is decremented by the corresponding channel of `rhs` with plain unsigned
(wrapping) arithmetic; alpha is untouched. -/
def colorSub (w : ℕ) (a b : ColorN) : ColorN :=
  { red := wrapSub w a.red b.red
    green := wrapSub w a.green b.green
    blue := wrapSub w a.blue b.blue
    alpha := a.alpha }

/-- All three colour channels are representable in `w` bits. -/
def ColorInRange (w : ℕ) (c : ColorN) : Prop :=
  c.red < 2 ^ w ∧ c.green < 2 ^ w ∧ c.blue < 2 ^ w

instance (w : ℕ) (c : ColorN) : Decidable (ColorInRange w c) := by
  unfold ColorInRange
  infer_instance

/-! ### `BitmapData<T>::Init()` and the `ConvertToDepth8` channel dispatch -/

/-- The channel-index members `_grayIndex`, `_alphaIndex`, `_redIndex`,
`_greenIndex`, `_blueIndex` of `BitmapData` (each `-1` when absent, the
member default). -/
structure ChannelLayout where
  gray : ℤ
  alpha : ℤ
  red : ℤ
  green : ℤ
  blue : ℤ
  deriving DecidableEq, Repr

/-- `BitmapData<T>::Init()`: the `switch (_channels)` that assigns the
channel indices, starting from the member defaults (all `-1`).  Channel
counts other than 1, 3 and 4 throw `std::runtime_error`. Every constructor
taking a geometry calls `Init()`, so this is the construction-time check. -/
def initLayout (channels : ℤ) : Except String ChannelLayout :=
  if channels = 1 then .ok { gray := 0, alpha := -1, red := 0, green := 0, blue := 0 }
  else if channels = 3 then .ok { gray := -1, alpha := -1, red := 0, green := 1, blue := 2 }
  else if channels = 4 then .ok { gray := -1, alpha := 0, red := 1, green := 2, blue := 3 }
  else .error "BitmapData: Unsupported number of channels"

/-- Whether an `Except` result is the success case. -/
def exceptIsOk : Except String ChannelLayout → Bool
  | .ok _ => true
  | .error _ => false

/-- The `switch (_channels)` at the top of `BitmapData<T>::ConvertToDepth8`:
`(destChannels, align)` for each accepted source channel count; counts other
than 1, 2, 3, 4 throw. -/
def convertToDepth8Channels (channels : ℤ) : Except String (ℤ × ℤ) :=
  if channels = 1 ∨ channels = 2 then .ok (1, 4)
  else if channels = 3 ∨ channels = 4 then .ok (4, 1)
  else .error "acrion image BitmapData ConvertToDepth8: Unsupported number of channels"

/-! ### Claim C1: colour subtraction -/

/-- C1 counterexample. The claim states that for 64-bit unsigned channels
`(3,5,7) - (5,3,2)` yields `(0,2,5)`, the red channel clamped at the type
minimum.  In the code `Color<T>::operator-=(Color)` performs plain unsigned
subtraction, so the red channel wraps to `2^64 - 2 = 18446744073709551614`,
not `0` — exactly what the repository test `ImageFrameworkTest.ColorWrap`
expects. -/
theorem colorSub_not_saturating_counterexample :
    colorSub 64 ⟨3, 5, 7, 18446744073709551615⟩ ⟨5, 3, 2, 18446744073709551615⟩ =
      ⟨18446744073709551614, 2, 5, 18446744073709551615⟩ ∧
    (colorSub 64 ⟨3, 5, 7, 18446744073709551615⟩ ⟨5, 3, 2, 18446744073709551615⟩).red ≠ 0 := by
  constructor
  · rfl
  · decide

/-! ### Claim C9: channel-count dispatch at construction time -/

/-- C9 (confirmed): `Init()` — called by every sizing constructor — succeeds
exactly for channel counts 1, 3 and 4 and otherwise throws; in particular
count 2 is rejected at construction even though the `ConvertToDepth8`
dispatch accepts it (mapping it to one destination channel, alignment 4).
On success the indices are the fixed channel-count-derived mapping:
count 1 gives gray = red = green = blue = 0 (no alpha); count 3 gives
red = 0, green = 1, blue = 2, no alpha and no gray index; count 4 gives
alpha = 0, red = 1, green = 2, blue = 3. -/
theorem initLayout_dispatch :
    initLayout 1 = .ok { gray := 0, alpha := -1, red := 0, green := 0, blue := 0 } ∧
    initLayout 3 = .ok { gray := -1, alpha := -1, red := 0, green := 1, blue := 2 } ∧
    initLayout 4 = .ok { gray := -1, alpha := 0, red := 1, green := 2, blue := 3 } ∧
    (∀ c : ℤ, exceptIsOk (initLayout c) = true ↔ c = 1 ∨ c = 3 ∨ c = 4) ∧
    exceptIsOk (initLayout 2) = false ∧
    convertToDepth8Channels 2 = .ok (1, 4) := by
  refine ⟨rfl, rfl, rfl, ?_, rfl, rfl⟩
  intro c
  constructor
  · intro h
    by_contra hne
    push_neg at hne
    obtain ⟨h1, h3, h4⟩ := hne
    unfold initLayout at h
    rw [if_neg h1, if_neg h3, if_neg h4] at h
    exact absurd h (by decide)
  · rintro (rfl | rfl | rfl) <;> rfl

/-! ### Claim C8: default displayed-brightness window -/

/-- C8 counterexample. The claim states that a fresh container's minimum
displayed brightness equals the sample type's minimum value for every sample
type including `double`; but the member initialiser is the literal `{0}`,
while `std::numeric_limits<double>::min()` is the smallest positive normal
`2 ^ (-1022)` (and `lowest()` is `-DBL_MAX`), so for `double` the default is
neither. -/
theorem defaultMinDisplayedBrightness_f64_counterexample :
    defaultMinDisplayedBrightness .f64 ≠ numericLimitsMin .f64 ∧
    defaultMinDisplayedBrightness .f64 ≠ numericLimitsLowest .f64 := by
  constructor <;> · show (0 : ℚ) ≠ _
                    norm_num [numericLimitsMin, numericLimitsLowest]

/-- C8 (corrected): the displayed-brightness window is initialised to
`[0, numeric_limits<T>::max()]`.  For the unsigned integer sample types this
coincides with `[T minimum, T maximum]` since their `numeric_limits` minimum
is 0; for `double` the upper end is `DBL_MAX` but the lower end is the
literal 0, which is neither `numeric_limits<double>::min()` (the smallest
positive normal, `2 ^ (-1022)`) nor `lowest()` (`-DBL_MAX`). -/
theorem default_display_window :
    (∀ s, defaultMaxDisplayedBrightness s = numericLimitsMax s) ∧
    defaultMinDisplayedBrightness .u8 = numericLimitsMin .u8 ∧
    defaultMinDisplayedBrightness .u16 = numericLimitsMin .u16 ∧
    defaultMinDisplayedBrightness .u32 = numericLimitsMin .u32 ∧
    defaultMinDisplayedBrightness .u64 = numericLimitsMin .u64 ∧
    defaultMinDisplayedBrightness .f64 = 0 ∧
    numericLimitsMin .f64 = 1 / 2 ^ 1022 ∧
    numericLimitsLowest .f64 = -(2 ^ 1024 - 2 ^ 971) := by
  exact ⟨fun s => rfl, rfl, rfl, rfl, rfl, rfl, rfl, rfl⟩

/-! ### Claim C3: weak size-equality between containers -/

/-- The geometry and content of a `BitmapData<T>`: width, height, channel
count, the sample type `T`, and the pixel buffer (sample values as exact
rationals so that buffers of different sample types share one model). -/
structure BitmapGeom where
  width : ℤ
  height : ℤ
  channels : ℤ
  sample : SampleType
  buffer : ℤ → ℚ

/-- `operator==(const BitmapData<T>&, const BitmapData<U>&)`: width, height,
channel count and the signed `Depth()` must agree; the buffer is never
read. -/
def bitmapEq (l r : BitmapGeom) : Prop :=
  l.width = r.width ∧ l.height = r.height ∧ l.channels = r.channels ∧
    depthOf l.sample = depthOf r.sample

instance (l r : BitmapGeom) : Decidable (bitmapEq l r) := by
  unfold bitmapEq
  infer_instance

/-- `operator<(const BitmapData<T>&, const BitmapData<U>&)`: compares
`width * height * channels * |Depth()|` (the cast to `double` is exact for
these integer products). -/
def bitmapLt (l r : BitmapGeom) : Prop :=
  l.width * l.height * l.channels * |depthOf l.sample| <
    r.width * r.height * r.channels * |depthOf r.sample|

/-- A 2x2 single-channel `BitmapData<uint64_t>` with zeroed pixels. -/
def bitmapU64Example : BitmapGeom :=
  { width := 2, height := 2, channels := 1, sample := .u64, buffer := fun _ => 0 }

/-- The same geometry as a `BitmapData<double>`. -/
def bitmapF64Example : BitmapGeom :=
  { width := 2, height := 2, channels := 1, sample := .f64, buffer := fun _ => 0 }

/-- C3 counterexample. The claim states the weak equality is determined by
width, height, channels and the absolute value of depth, so that identical
geometries with depths `8` (`uint64_t`) and `-8` (`double`) compare equal;
but `operator==` compares the signed `Depth()`, so these two containers are
unequal. -/
theorem bitmapEq_signed_depth_counterexample :
    bitmapU64Example.width = bitmapF64Example.width ∧
    bitmapU64Example.height = bitmapF64Example.height ∧
    bitmapU64Example.channels = bitmapF64Example.channels ∧
    depthOf bitmapU64Example.sample = 8 ∧
    depthOf bitmapF64Example.sample = -8 ∧
    |depthOf bitmapU64Example.sample| = |depthOf bitmapF64Example.sample| ∧
    ¬ bitmapEq bitmapU64Example bitmapF64Example := by
  refine ⟨rfl, rfl, rfl, rfl, rfl, by decide, ?_⟩
  intro h
  exact absurd h.2.2.2 (by decide)

/-- C3 (corrected): the weak size-equality holds exactly when width, height,
channel count, the absolute value of depth AND the numeric domain
(floating-point or not) all agree — equivalently, when the signed depth
agrees — and it never depends on pixel content: replacing either buffer
leaves the comparison unchanged. Two same-geometry containers whose depths
are `8` and `-8` therefore compare unequal (only the weak ordering
`operator<` uses `|depth|`). -/
theorem bitmapEq_characterisation (l r : BitmapGeom) (f g : ℤ → ℚ) :
    (bitmapEq l r ↔
      (l.width = r.width ∧ l.height = r.height ∧ l.channels = r.channels ∧
        |depthOf l.sample| = |depthOf r.sample| ∧
        sampleIsFloat l.sample = sampleIsFloat r.sample)) ∧
    (bitmapEq { l with buffer := f } { r with buffer := g } ↔ bitmapEq l r) := by
  constructor
  · unfold bitmapEq
    have hdepth : depthOf l.sample = depthOf r.sample ↔
        (|depthOf l.sample| = |depthOf r.sample| ∧
          sampleIsFloat l.sample = sampleIsFloat r.sample) := by
      cases l.sample <;> cases r.sample <;> decide
    constructor
    · rintro ⟨h1, h2, h3, h4⟩
      exact ⟨h1, h2, h3, (hdepth.mp h4).1, (hdepth.mp h4).2⟩
    · rintro ⟨h1, h2, h3, h4, h5⟩
      exact ⟨h1, h2, h3, hdepth.mpr ⟨h4, h5⟩⟩
  · unfold bitmapEq
    exact Iff.rfl

/-! ### Claim C4: the average stored by `MaxGray` / `MinGray`

`MaxGray`/`MinGray` clamp the rectangle to `[0,width-1] x [0,height-1]`,
accumulate `sum += GetGray(x, y)` over the clamped region, and on request
store `*average = (T)((sum + 1) / ((x1 - x0 + 1) * (y1 - y0 + 1)))`.  For
unsigned integer samples the `long double` quotient truncates to the floor,
i.e. natural division. -/

/-- The integers from `a` to `b` inclusive (empty when `b < a`): the index
set of a C++ loop `for (v = a; v <= b; ++v)`. -/
def intRange (a b : ℤ) : List ℤ :=
  (List.range (b + 1 - a).toNat).map (fun (k : ℕ) => a + (k : ℤ))

/-- The `sum` accumulated by the scan loop of `MaxGray` (identically
`MinGray`) over the clamped rectangle: gray values of all pixels with
`max 0 x0 ≤ x ≤ min (W-1) x1` and `max 0 y0 ≤ y ≤ min (H-1) y1`. -/
def maxGraySum (W H : ℤ) (gray : ℤ → ℤ → ℕ) (x0 y0 x1 y1 : ℤ) : ℕ :=
  ((intRange (max 0 y0) (min (H - 1) y1)).map (fun y =>
    ((intRange (max 0 x0) (min (W - 1) x1)).map (fun x => gray x y)).sum)).sum

/-- The divisor `(x1 - x0 + 1) * (y1 - y0 + 1)` of the average, computed on
the clamped bounds. -/
def maxGrayCount (W H x0 y0 x1 y1 : ℤ) : ℤ :=
  (min (W - 1) x1 - max 0 x0 + 1) * (min (H - 1) y1 - max 0 y0 + 1)

/-- The value `MaxGray`/`MinGray` store through their `average` out
parameter: `(T)((sum + 1) / count)`, which for unsigned integer samples is
the floored quotient. -/
def maxGrayAverage (W H : ℤ) (gray : ℤ → ℤ → ℕ) (x0 y0 x1 y1 : ℤ) : ℕ :=
  (maxGraySum W H gray x0 y0 x1 y1 + 1) / (maxGrayCount W H x0 y0 x1 y1).toNat

theorem listRange_map_sum (n : ℕ) (g : ℕ → ℕ) :
    ((List.range n).map g).sum = ∑ i in Finset.range n, g i := by
  induction n with
  | zero => simp
  | succ n ih =>
      rw [List.range_succ, List.map_append, List.sum_append, Finset.sum_range_succ, ih]
      simp

theorem intRange_map_sum (f : ℤ → ℕ) (a b : ℤ) :
    ((intRange a b).map f).sum = ∑ i in Finset.range (b + 1 - a).toNat, f (a + (i : ℤ)) := by
  unfold intRange
  rw [List.map_map]
  exact listRange_map_sum ((b + 1 - a).toNat) (fun k => f (a + (k : ℤ)))

/-- C4 counterexample. The claim states the stored average is the arithmetic
mean (sum of the scanned grays divided by the pixel count).  On a 1x1 image
whose only pixel has gray 0, the scanned sum is 0 over 1 pixel, so the mean
is 0, yet the code stores `(0 + 1) / 1 = 1`. -/
theorem maxGrayAverage_counterexample :
    maxGrayAverage 1 1 (fun _ _ => 0) 0 0 0 0 = 1 ∧
    maxGraySum 1 1 (fun _ _ => 0) 0 0 0 0 = 0 ∧
    (maxGrayCount 1 1 0 0 0 0).toNat = 1 := by
  refine ⟨rfl, rfl, rfl⟩

/-- C4 (corrected): for a rectangle that clamps to a non-empty region, the
value stored as the average is `(S + 1) / N` rounded down — the sum of the
scanned gray values plus one, divided by the scanned pixel count — not the
arithmetic mean `S / N`. -/
theorem maxGrayAverage_formula (W H : ℤ) (gray : ℤ → ℤ → ℕ) (x0 y0 x1 y1 : ℤ)
    (hx : max 0 x0 ≤ min (W - 1) x1) (hy : max 0 y0 ≤ min (H - 1) y1) :
    maxGrayAverage W H gray x0 y0 x1 y1 =
      ((∑ j in Finset.range (min (H - 1) y1 + 1 - max 0 y0).toNat,
          ∑ i in Finset.range (min (W - 1) x1 + 1 - max 0 x0).toNat,
            gray (max 0 x0 + (i : ℤ)) (max 0 y0 + (j : ℤ))) + 1) /
        ((min (W - 1) x1 + 1 - max 0 x0).toNat * (min (H - 1) y1 + 1 - max 0 y0).toNat) := by
  unfold maxGrayAverage maxGraySum maxGrayCount
  rw [intRange_map_sum]
  simp only [intRange_map_sum]
  have e1 : min (W - 1) x1 - max 0 x0 + 1 = ((min (W - 1) x1 + 1 - max 0 x0).toNat : ℤ) := by
    omega
  have e2 : min (H - 1) y1 - max 0 y0 + 1 = ((min (H - 1) y1 + 1 - max 0 y0).toNat : ℤ) := by
    omega
  rw [e1, e2, ← Nat.cast_mul, Int.toNat_natCast]

/-- C4 witness: `maxGrayAverage_formula` on a 2x2 image with grays
`x + 2 y`, scanning the whole image. -/
theorem maxGrayAverage_formula_witness :
    max 0 (0 : ℤ) ≤ min ((2 : ℤ) - 1) 1 ∧
    maxGrayAverage 2 2 (fun x y => (x + 2 * y).toNat) 0 0 1 1 =
      ((∑ j in Finset.range (min ((2 : ℤ) - 1) 1 + 1 - max 0 0).toNat,
          ∑ i in Finset.range (min ((2 : ℤ) - 1) 1 + 1 - max 0 0).toNat,
            ((max 0 (0 : ℤ) + (i : ℤ)) + 2 * (max 0 (0 : ℤ) + (j : ℤ))).toNat) + 1) /
        ((min ((2 : ℤ) - 1) 1 + 1 - max 0 0).toNat * (min ((2 : ℤ) - 1) 1 + 1 - max 0 0).toNat) := by
  exact ⟨by decide,
    maxGrayAverage_formula 2 2 (fun x y => (x + 2 * y).toNat) 0 0 1 1 (by decide) (by decide)⟩

/-! ### Claim C7: `CalculateDisplayValue` with gamma 0

`CalculateDisplayValue` clamps the sample into the displayed-brightness
window, forms `diff = val >= min ? val - min : 0`, the linear response
`val0 = 255.0 * diff / (max - min)`, and — when the current gamma is 0 —
returns `(uint8_t)std::max(0l, std::min(255l, std::lround(val0)))`.  The
`double` arithmetic is modelled exactly on rationals. -/

/-- The clamp `std::min(std::max(val, _minDisplayedBrightness),
_maxDisplayedBrightness)`. -/
def displayClamp (minD maxD val : ℚ) : ℚ :=
  min (max val minD) maxD

/-- `const T diff = val >= _minDisplayedBrightness ?
val - _minDisplayedBrightness : 0` applied to the clamped value. -/
def displayDiff (minD maxD val : ℚ) : ℚ :=
  if displayClamp minD maxD val ≥ minD then displayClamp minD maxD val - minD else 0

/-- `BitmapData<T>::CalculateDisplayValue(val)` specialised to
`_currentGamma == 0` (the only case claim C7 concerns; the other branch
blends in a logarithmic response):
`(uint8_t)std::max(0l, std::min(255l, std::lround(val0)))` with
`val0 = 255.0 * diff / (max - min)`. -/
def calculateDisplayValue0 (minD maxD val : ℚ) : ℤ :=
  max 0 (min 255 (lroundQ (255 * displayDiff minD maxD val / (maxD - minD))))

theorem lroundQ_mono {p q : ℚ} (h : p ≤ q) : lroundQ p ≤ lroundQ q := by
  unfold lroundQ
  split_ifs with hp hq
  · exact Int.floor_le_floor (by linarith)
  · exact absurd (le_trans hp h) hq
  · have h1 : -⌊-p + 1 / 2⌋ ≤ 0 := by
      have := Int.floor_nonneg.mpr (show (0 : ℚ) ≤ -p + 1 / 2 by linarith)
      omega
    have h2 : (0 : ℤ) ≤ ⌊q + 1 / 2⌋ := Int.floor_nonneg.mpr (by linarith)
    omega
  · have := Int.floor_le_floor (show -q + 1 / 2 ≤ -p + 1 / 2 by linarith)
    omega

theorem displayClamp_ge (minD maxD val : ℚ) (h : minD ≤ maxD) :
    minD ≤ displayClamp minD maxD val :=
  le_min (le_max_right _ _) h

theorem displayClamp_mono (minD maxD : ℚ) {v1 v2 : ℚ} (h : v1 ≤ v2) :
    displayClamp minD maxD v1 ≤ displayClamp minD maxD v2 :=
  min_le_min (max_le_max h le_rfl) le_rfl

/-- C7 (confirmed): with gamma 0 and `minDisplayed < maxDisplayed`, the
8-bit display mapping is monotone non-decreasing in the sample value (on the
whole line, hence in particular on `[min, max]`), maps a sample equal to
`minDisplayed` to exactly 0 and a sample equal to `maxDisplayed` to exactly
255. -/
theorem calculateDisplayValue0_monotone (minD maxD : ℚ) (h : minD < maxD) :
    (∀ v1 v2 : ℚ, v1 ≤ v2 →
      calculateDisplayValue0 minD maxD v1 ≤ calculateDisplayValue0 minD maxD v2) ∧
    calculateDisplayValue0 minD maxD minD = 0 ∧
    calculateDisplayValue0 minD maxD maxD = 255 := by
  have hpos : (0 : ℚ) < maxD - minD := by linarith
  refine ⟨?_, ?_, ?_⟩
  · intro v1 v2 hv
    unfold calculateDisplayValue0
    have hd : displayDiff minD maxD v1 ≤ displayDiff minD maxD v2 := by
      unfold displayDiff
      rw [if_pos (displayClamp_ge minD maxD v1 h.le),
        if_pos (displayClamp_ge minD maxD v2 h.le)]
      have := displayClamp_mono minD maxD hv
      linarith
    have hval0 : 255 * displayDiff minD maxD v1 / (maxD - minD) ≤
        255 * displayDiff minD maxD v2 / (maxD - minD) := by
      apply div_le_div_of_nonneg_right ?_ hpos.le
      linarith
    exact max_le_max le_rfl (min_le_min le_rfl (lroundQ_mono hval0))
  · unfold calculateDisplayValue0 displayDiff displayClamp
    rw [max_self, min_eq_left h.le]
    rw [if_pos le_rfl, sub_self, mul_zero, zero_div]
    norm_num [lroundQ]
  · unfold calculateDisplayValue0 displayDiff displayClamp
    rw [max_eq_left h.le, min_self]
    rw [if_pos h.le]
    rw [mul_div_assoc, div_self (ne_of_gt hpos), mul_one]
    norm_num [lroundQ]

/-- C7 witness: `calculateDisplayValue0_monotone` at the window `[0, 255]`. -/
theorem calculateDisplayValue0_monotone_witness :
    (0 : ℚ) < 255 ∧
    ((∀ v1 v2 : ℚ, v1 ≤ v2 →
      calculateDisplayValue0 0 255 v1 ≤ calculateDisplayValue0 0 255 v2) ∧
    calculateDisplayValue0 0 255 0 = 0 ∧
    calculateDisplayValue0 0 255 255 = 255) :=
  ⟨by norm_num, calculateDisplayValue0_monotone 0 255 (by norm_num)⟩

/-! ### `interpolation::Do` (claims C5 and C6)

The routine is generic over any mixable value type; it is embedded over an
arbitrary type `V` with an explicit `mix` operation (the C++ duck-typed
`Mix` member taking a list of weight/value pairs) and an explicit `sqrtQ`
parameter abstracting `std::sqrt` (the square roots only feed the blend
weights of the general branch, which no claim constrains numerically).
Query coordinates and bounds are exact rationals. -/

/-- `static_cast<int>(std::floor(std::max(lo, std::min(hi, d))))`. -/
def interpFloorClamp (lo hi d : ℚ) : ℤ :=
  ⌊max lo (min hi d)⌋

/-- The general (interior-cell) branch of `interpolation::Do`, given the
fractional offsets `x, y` and the four corner samples `a` (top left),
`b` (top right), `c` (bottom left), `d` (bottom right). -/
def interpGeneral {V : Type} (mix : V → List (ℚ × V) → V) (sqrtQ : ℚ → ℚ)
    (x y : ℚ) (a b c d : V) : V :=
  let x_neg := 1 - x
  let y_neg := 1 - y
  let da := sqrtQ (x * x + y * y)
  let dc := sqrtQ (x * x + y_neg * y_neg)
  let db := sqrtQ (x_neg * x_neg + y * y)
  let dd := sqrtQ (x_neg * x_neg + y_neg * y_neg)
  let dab := sqrtQ (y * y)
  let dcd := sqrtQ (y_neg * y_neg)
  let dac := sqrtQ (x * x)
  let dbd := sqrtQ (x_neg * x_neg)
  let ci := max 0 (1 - dc)
  let bi := max 0 (1 - db)
  let ai := max 0 (1 - da)
  let di := max 0 (1 - dd)
  let abi := max 0 (1 - dab)
  let cdi := max 0 (1 - dcd)
  let aci := max 0 (1 - dac)
  let bdi := max 0 (1 - dbd)
  let t := ai + bi + ci + di
  let s := abi + cdi + aci + bdi
  let ab := if x = 0 then a else mix a [(x, b)]
  let cd := if x = 0 then c else mix c [(x, d)]
  let ac := if y = 0 then a else mix a [(y, c)]
  let bd := if y = 0 then b else mix b [(y, d)]
  let col1 := if s = 0 then mix ab [(1 / 4, cd), (1 / 4, ac), (1 / 4, bd)]
              else mix ab [(cdi / s, cd), (aci / s, ac), (bdi / s, bd)]
  let col2 := if t = 0 then mix a [(1 / 4, b), (1 / 4, c), (1 / 4, d)]
              else mix a [(bi / t, b), (ci / t, c), (di / t, d)]
  let weight := 2 * min (min (min dab dcd) dac) dbd
  mix col1 [(weight, col2)]

/-- `interpolation::Do(dx, dy, min_x, min_y, max_x, max_y, Get)`: clamp the
query into the bounds, floor to the lattice cell, and dispatch on the
degenerate-offset / boundary conditions exactly as the source does. -/
def interpDo {V : Type} (mix : V → List (ℚ × V) → V) (sqrtQ : ℚ → ℚ)
    (dx dy minx miny maxx maxy : ℚ) (get : ℤ → ℤ → V) : V :=
  let ix := interpFloorClamp minx maxx dx
  let iy := interpFloorClamp miny maxy dy
  let x := dx - (ix : ℚ)
  let y := dy - (iy : ℚ)
  if x ≤ 0 ∨ (ix : ℚ) + 1 > maxx then
    if y ≤ 0 ∨ (iy : ℚ) + 1 > maxy then
      get ix iy
    else
      mix (get ix iy) [(y, get ix (iy + 1))]
  else if y ≤ 0 ∨ (iy : ℚ) + 1 > maxy then
    mix (get ix iy) [(x, get (ix + 1) iy)]
  else
    interpGeneral mix sqrtQ x y
      (get ix iy) (get (ix + 1) iy) (get ix (iy + 1)) (get (ix + 1) (iy + 1))

theorem interpFloorClamp_lower (mx Mx : ℤ) (d : ℚ) :
    mx ≤ interpFloorClamp (mx : ℚ) (Mx : ℚ) d := by
  unfold interpFloorClamp
  exact Int.le_floor.mpr (le_max_left _ _)

theorem interpFloorClamp_upper (mx Mx : ℤ) (d : ℚ) (h : mx ≤ Mx) :
    interpFloorClamp (mx : ℚ) (Mx : ℚ) d ≤ Mx := by
  unfold interpFloorClamp
  have h1 : max (mx : ℚ) (min (Mx : ℚ) d) ≤ (Mx : ℚ) :=
    max_le (by exact_mod_cast h) (min_le_left _ _)
  calc ⌊max (mx : ℚ) (min (Mx : ℚ) d)⌋ ≤ ⌊(Mx : ℚ)⌋ := Int.floor_le_floor h1
    _ = Mx := Int.floor_intCast Mx

/-- C5 (confirmed): with integer-valued bounds `min_x ≤ max_x`,
`min_y ≤ max_y`, the interpolation routine only evaluates its sampler at
lattice points inside `[min_x, max_x] x [min_y, max_y]`: its result is
unchanged when the sampler is replaced by any other sampler agreeing on that
box (so a query at or beyond the upper bounds never causes an out-of-range
sample), and being a total function it always produces a value. -/
theorem interpDo_sampler_in_bounds {V : Type} (mix : V → List (ℚ × V) → V)
    (sqrtQ : ℚ → ℚ) (mx my Mx My : ℤ) (dx dy : ℚ) (g1 g2 : ℤ → ℤ → V)
    (hx : mx ≤ Mx) (hy : my ≤ My)
    (hg : ∀ i j : ℤ, mx ≤ i → i ≤ Mx → my ≤ j → j ≤ My → g1 i j = g2 i j) :
    interpDo mix sqrtQ dx dy (mx : ℚ) (my : ℚ) (Mx : ℚ) (My : ℚ) g1 =
      interpDo mix sqrtQ dx dy (mx : ℚ) (my : ℚ) (Mx : ℚ) (My : ℚ) g2 := by
  have hixl := interpFloorClamp_lower mx Mx dx
  have hixu := interpFloorClamp_upper mx Mx dx hx
  have hiyl := interpFloorClamp_lower my My dy
  have hiyu := interpFloorClamp_upper my My dy hy
  simp only [interpDo]
  split_ifs with h1 h2 h3
  · rw [hg _ _ hixl hixu hiyl hiyu]
  · have h2y : interpFloorClamp (my : ℚ) (My : ℚ) dy + 1 ≤ My := by
      push_neg at h2
      exact_mod_cast h2.2
    rw [hg _ _ hixl hixu hiyl hiyu, hg _ _ hixl hixu (by omega) h2y]
  · have h1x : interpFloorClamp (mx : ℚ) (Mx : ℚ) dx + 1 ≤ Mx := by
      push_neg at h1
      exact_mod_cast h1.2
    rw [hg _ _ hixl hixu hiyl hiyu, hg _ _ (by omega) h1x hiyl hiyu]
  · have h1x : interpFloorClamp (mx : ℚ) (Mx : ℚ) dx + 1 ≤ Mx := by
      push_neg at h1
      exact_mod_cast h1.2
    have h3y : interpFloorClamp (my : ℚ) (My : ℚ) dy + 1 ≤ My := by
      push_neg at h3
      exact_mod_cast h3.2
    rw [hg _ _ hixl hixu hiyl hiyu, hg _ _ (by omega) h1x hiyl hiyu,
      hg _ _ hixl hixu (by omega) h3y, hg _ _ (by omega) h1x (by omega) h3y]

/-- A linear mixing operation on rational scalars, used only to instantiate
the generic interpolation theorems at a concrete value type. -/
def mixLinear (v : ℚ) (l : List (ℚ × ℚ)) : ℚ :=
  v + (l.map (fun p => p.1 * p.2)).sum

/-- A concrete sampler. -/
def getterSum (i j : ℤ) : ℚ :=
  (i : ℚ) + (j : ℚ)

/-- The same sampler restricted to the box `[0,3] x [0,3]`, with garbage
outside. -/
def getterSumBoxed (i j : ℤ) : ℚ :=
  if 0 ≤ i ∧ i ≤ 3 ∧ 0 ≤ j ∧ j ≤ 3 then (i : ℚ) + (j : ℚ) else 99

/-- C5 witness: `interpDo_sampler_in_bounds` on the box `[0,3] x [0,3]` at
the fractional query `(5/2, 1/2)`: corrupting the sampler outside the box
does not change the result. -/
theorem interpDo_sampler_in_bounds_witness :
    (0 : ℤ) ≤ 3 ∧
    interpDo mixLinear id (5 / 2) (1 / 2)
        ((0 : ℤ) : ℚ) ((0 : ℤ) : ℚ) ((3 : ℤ) : ℚ) ((3 : ℤ) : ℚ) getterSum =
      interpDo mixLinear id (5 / 2) (1 / 2)
        ((0 : ℤ) : ℚ) ((0 : ℤ) : ℚ) ((3 : ℤ) : ℚ) ((3 : ℤ) : ℚ) getterSumBoxed :=
  ⟨by decide,
    interpDo_sampler_in_bounds mixLinear id 0 0 3 3 (5 / 2) (1 / 2) getterSum getterSumBoxed
      (by decide) (by decide)
      (fun i j hi1 hi2 hj1 hj2 => by
        unfold getterSum getterSumBoxed
        rw [if_pos ⟨hi1, hi2, hj1, hj2⟩])⟩

/-- C6 (confirmed): at integer query coordinates within the clamp bounds the
interpolation collapses to a direct lookup: the fractional offsets are zero
in both axes, so the first branch returns `sample(dx, dy)` exactly, with no
mixing. -/
theorem interpDo_exact_at_lattice {V : Type} (mix : V → List (ℚ × V) → V)
    (sqrtQ : ℚ → ℚ) (minx miny maxx maxy : ℚ) (g : ℤ → ℤ → V) (a b : ℤ)
    (h1 : minx ≤ (a : ℚ)) (h2 : (a : ℚ) ≤ maxx)
    (h3 : miny ≤ (b : ℚ)) (h4 : (b : ℚ) ≤ maxy) :
    interpDo mix sqrtQ (a : ℚ) (b : ℚ) minx miny maxx maxy g = g a b := by
  have hx : interpFloorClamp minx maxx (a : ℚ) = a := by
    unfold interpFloorClamp
    rw [min_eq_right h2, max_eq_right h1]
    exact Int.floor_intCast a
  have hy : interpFloorClamp miny maxy (b : ℚ) = b := by
    unfold interpFloorClamp
    rw [min_eq_right h4, max_eq_right h3]
    exact Int.floor_intCast b
  simp only [interpDo, hx, hy, sub_self]
  rw [if_pos (Or.inl le_rfl), if_pos (Or.inl le_rfl)]

/-- C6 witness: `interpDo_exact_at_lattice` at the lattice point `(2, 1)` of
the box `[0,3] x [0,3]`. -/
theorem interpDo_exact_at_lattice_witness :
    ((0 : ℚ) ≤ ((2 : ℤ) : ℚ)) ∧
    interpDo mixLinear id (((2 : ℤ)) : ℚ) (((1 : ℤ)) : ℚ) 0 0 3 3 getterSum =
      getterSum 2 1 :=
  ⟨by norm_num,
    interpDo_exact_at_lattice mixLinear id 0 0 3 3 getterSum 2 1
      (by norm_num) (by norm_num) (by norm_num) (by norm_num)⟩

/-! ### Claim C2: the integer Bresenham `Draw`

`BitmapData<T>::Draw(x0, y0, x1, y1, draw)` loops: if the current point is
inside the canvas it invokes the callback (returning early if the callback
returns false); it breaks after processing the endpoint; otherwise it takes
the standard midpoint-error step.  The loop is embedded with explicit fuel
(the loop always terminates; any fuel large enough for the walk gives the
full call list, and the calls/steps relation below holds for every fuel). -/

/-- Whether the loop's canvas test `x0 >= 0 && y0 >= 0 && x0 < Width() &&
y0 < Height()` passes. -/
def inCanvas (W H x y : ℤ) : Bool :=
  decide (0 ≤ x) && decide (0 ≤ y) && decide (x < W) && decide (y < H)

/-- One midpoint-error step of the loop: `e2 = 2 * err`; if `e2 >= dy`
then `err += dy; x0 += sx`; if `e2 <= dx` then `err += dx; y0 += sy`
(both tests against the old `e2`, as in the source). Returns the new
`(x0, y0, err)`. -/
def bresStep (dx dy sx sy x0 y0 err : ℤ) : ℤ × ℤ × ℤ :=
  let e2 := 2 * err
  let errx := if e2 ≥ dy then err + dy else err
  let x0x := if e2 ≥ dy then x0 + sx else x0
  let erry := if e2 ≤ dx then errx + dx else errx
  let y0y := if e2 ≤ dx then y0 + sy else y0
  (x0x, y0y, erry)

/-- The lattice points the loop steps through, from the current state until
the endpoint (inclusive), independent of canvas or callback. -/
def bresStepsAux (x1 y1 dx dy sx sy : ℤ) : ℕ → ℤ → ℤ → ℤ → List (ℤ × ℤ)
  | 0, _, _, _ => []
  | fuel + 1, x0, y0, err =>
    if x0 = x1 ∧ y0 = y1 then [(x0, y0)]
    else
      (x0, y0) ::
        bresStepsAux x1 y1 dx dy sx sy fuel (bresStep dx dy sx sy x0 y0 err).1
          (bresStep dx dy sx sy x0 y0 err).2.1 (bresStep dx dy sx sy x0 y0 err).2.2

/-- The points at which the loop actually invokes the callback, in order:
the loop body tests `inCanvas` first, invokes `draw` only then, returns
immediately when `draw` yields false, and breaks after the endpoint. -/
def bresCallsAux (W H : ℤ) (draw : ℤ → ℤ → Bool) (x1 y1 dx dy sx sy : ℤ) :
    ℕ → ℤ → ℤ → ℤ → List (ℤ × ℤ)
  | 0, _, _, _ => []
  | fuel + 1, x0, y0, err =>
    if inCanvas W H x0 y0 then
      if draw x0 y0 then
        if x0 = x1 ∧ y0 = y1 then [(x0, y0)]
        else
          (x0, y0) ::
            bresCallsAux W H draw x1 y1 dx dy sx sy fuel (bresStep dx dy sx sy x0 y0 err).1
              (bresStep dx dy sx sy x0 y0 err).2.1 (bresStep dx dy sx sy x0 y0 err).2.2
      else [(x0, y0)]
    else if x0 = x1 ∧ y0 = y1 then []
    else
      bresCallsAux W H draw x1 y1 dx dy sx sy fuel (bresStep dx dy sx sy x0 y0 err).1
        (bresStep dx dy sx sy x0 y0 err).2.1 (bresStep dx dy sx sy x0 y0 err).2.2

/-- The longest prefix of a list on which `p` stays true, plus the first
element falsifying `p` (the semantics of an early-return loop). -/
def takeThrough {α : Type} (p : α → Bool) : List α → List α
  | [] => []
  | a :: t => if p a then a :: takeThrough p t else [a]

/-- Fuel sufficient for the whole walk of `Draw(x0, y0, x1, y1, _)`. -/
def bresFuel (x0 y0 x1 y1 : ℤ) : ℕ :=
  (x1 - x0).natAbs + (y1 - y0).natAbs + 1

/-- The stepped lattice points of `Draw(x0, y0, x1, y1, _)` with the
initial values `dx = abs(x1-x0)`, `sx = x0 < x1 ? 1 : -1`,
`dy = -abs(y1-y0)`, `sy = y0 < y1 ? 1 : -1`, `err = dx + dy`. -/
def drawSteps (x0 y0 x1 y1 : ℤ) : List (ℤ × ℤ) :=
  bresStepsAux x1 y1 |x1 - x0| (-|y1 - y0|) (if x0 < x1 then 1 else -1)
    (if y0 < y1 then 1 else -1) (bresFuel x0 y0 x1 y1) x0 y0 (|x1 - x0| + -|y1 - y0|)

/-- The callback invocations `Draw(x0, y0, x1, y1, draw)` performs on a
`W x H` canvas. -/
def drawCalls (W H x0 y0 x1 y1 : ℤ) (draw : ℤ → ℤ → Bool) : List (ℤ × ℤ) :=
  bresCallsAux W H draw x1 y1 |x1 - x0| (-|y1 - y0|) (if x0 < x1 then 1 else -1)
    (if y0 < y1 then 1 else -1) (bresFuel x0 y0 x1 y1) x0 y0 (|x1 - x0| + -|y1 - y0|)

theorem bresCallsAux_eq_takeThrough (W H : ℤ) (draw : ℤ → ℤ → Bool)
    (x1 y1 dx dy sx sy : ℤ) (fuel : ℕ) :
    ∀ x0 y0 err,
      bresCallsAux W H draw x1 y1 dx dy sx sy fuel x0 y0 err =
        takeThrough (fun q => draw q.1 q.2)
          ((bresStepsAux x1 y1 dx dy sx sy fuel x0 y0 err).filter
            (fun q => inCanvas W H q.1 q.2)) := by
  induction fuel with
  | zero => intro x0 y0 err; rfl
  | succ fuel ih =>
      intro x0 y0 err
      by_cases hend : x0 = x1 ∧ y0 = y1
      · obtain ⟨rfl, rfl⟩ := hend
        by_cases hin : inCanvas W H x0 y0
        · by_cases hdraw : draw x0 y0
          · simp [bresCallsAux, bresStepsAux, hin, hdraw, takeThrough,
              List.filter_cons]
          · simp [bresCallsAux, bresStepsAux, hin, hdraw, takeThrough,
              List.filter_cons]
        · simp [bresCallsAux, bresStepsAux, hin, takeThrough, List.filter_cons]
      · by_cases hin : inCanvas W H x0 y0
        · by_cases hdraw : draw x0 y0
          · simp only [bresCallsAux, bresStepsAux, if_neg hend]
            simp [hin, hdraw, List.filter_cons, takeThrough, ih]
          · simp only [bresCallsAux, bresStepsAux, if_neg hend]
            simp [hin, hdraw, List.filter_cons, takeThrough]
        · simp only [bresCallsAux, bresStepsAux, if_neg hend]
          simp [hin, List.filter_cons, takeThrough, ih]

/-- C2 counterexample. The claim states the callback is invoked at every
stepped lattice point, including points outside the canvas. On a 1x1 canvas
the line from `(1,0)` to `(2,0)` steps through `(1,0)` and `(2,0)`, both
outside the canvas, yet the loop — whose body tests the canvas bounds
before invoking the callback — never invokes the callback. -/
theorem drawCalls_skips_offcanvas_counterexample :
    drawSteps 1 0 2 0 = [(1, 0), (2, 0)] ∧
    drawCalls 1 1 1 0 2 0 (fun _ _ => true) = [] := by
  constructor
  · rfl
  · rfl

/-- C2 (corrected): the walk follows the standard midpoint-error stepping,
but the loop itself performs the canvas bounds test: the callback is invoked
exactly at the stepped lattice points lying inside the canvas, in step
order, up to and including the first in-canvas point at which the callback
returns false (at which the walk aborts); stepped points outside the canvas
are skipped without invoking the callback. -/
theorem drawCalls_eq_takeThrough_filter (W H x0 y0 x1 y1 : ℤ)
    (draw : ℤ → ℤ → Bool) :
    drawCalls W H x0 y0 x1 y1 draw =
      takeThrough (fun q => draw q.1 q.2)
        ((drawSteps x0 y0 x1 y1).filter (fun q => inCanvas W H q.1 q.2)) := by
  unfold drawCalls drawSteps
  exact bresCallsAux_eq_takeThrough W H draw x1 y1 _ _ _ _ _ x0 y0 _

/-! ### Claim C10: `Plot` on a container without an alpha channel

`Plot(x, y, color)` returns true immediately for out-of-bounds coordinates;
otherwise it writes the gray channel (when `_grayIndex != -1`) or the
red/green/blue channels through the pixel pointer, and only afterwards, when
`_alphaIndex == -1` and the color's alpha differs from
`std::numeric_limits<T>::max()`, throws — leaving the channel writes in
place. Raw pixel memory is modelled as a total function from flat sample
indices to values. -/

/-- A `BitmapData<T>` for an unsigned sample type: geometry, the channel
indices assigned by `Init()`, `tmax = std::numeric_limits<T>::max()`, and
the flat sample buffer. -/
structure BitmapBuf where
  width : ℤ
  height : ℤ
  channels : ℤ
  layout : ChannelLayout
  tmax : ℕ
  buffer : ℤ → ℕ

/-- A single sample store `Buffer()[i] = v`. -/
def bufWrite (b : BitmapBuf) (i : ℤ) (v : ℕ) : BitmapBuf :=
  { b with buffer := fun j => if j = i then v else b.buffer j }

/-- `Color<T>::Gray()`: the shared channel value for a gray colour,
otherwise `llround(0.299 r + 0.587 g + 0.114 b)`. -/
def colorGray (c : ColorN) : ℕ :=
  if c.red = c.green ∧ c.red = c.blue then c.red
  else (lroundQ ((299 / 1000) * (c.red : ℚ) + (587 / 1000) * (c.green : ℚ) +
    (114 / 1000) * (c.blue : ℚ))).toNat

/-- `BitmapData<T>::Plot(x, y, color)`: the final state of the pixel buffer
together with the error thrown (if any). The C++ returns `true` on every
non-throwing path; the out-of-bounds early return performs no write. -/
def plot (b : BitmapBuf) (x y : ℤ) (c : ColorN) : BitmapBuf × Option String :=
  if x < 0 ∨ y < 0 ∨ x ≥ b.width ∨ y ≥ b.height then (b, none)
  else
    let base := (y * b.width + x) * b.channels
    let b1 :=
      if b.layout.gray ≠ -1 then bufWrite b (base + b.layout.gray) (colorGray c)
      else
        bufWrite (bufWrite (bufWrite b (base + b.layout.red) c.red)
          (base + b.layout.green) c.green) (base + b.layout.blue) c.blue
    if b.layout.alpha = -1 then
      if c.alpha ≠ b.tmax then
        (b1, some "BitmapData Set: Cannot set alpha channel in an image without one")
      else (b1, none)
    else (bufWrite b1 (base + b.layout.alpha) c.alpha, none)

/-- C10 (confirmed): on a container whose layout has no alpha channel
(channel count 1 or 3, as produced by `Init()`), an in-bounds `Plot` throws
exactly when the colour's alpha differs from the sample type's maximum — and
whether it throws or not, the pixel's gray channel (1-channel layout) or
red/green/blue channels (3-channel layout) hold the new colour afterwards:
the buffer is mutated before the alpha check, so the error path is not
atomic. -/
theorem plot_alpha_throw_after_mutation (b : BitmapBuf) (x y : ℤ) (c : ColorN)
    (hlay : initLayout b.channels = .ok b.layout) (halpha : b.layout.alpha = -1)
    (hx0 : 0 ≤ x) (hxw : x < b.width) (hy0 : 0 ≤ y) (hyh : y < b.height) :
    (((plot b x y c).2.isSome) ↔ c.alpha ≠ b.tmax) ∧
    (b.channels = 1 →
      (plot b x y c).1.buffer ((y * b.width + x) * b.channels) = colorGray c) ∧
    (b.channels = 3 →
      (plot b x y c).1.buffer ((y * b.width + x) * b.channels) = c.red ∧
      (plot b x y c).1.buffer ((y * b.width + x) * b.channels + 1) = c.green ∧
      (plot b x y c).1.buffer ((y * b.width + x) * b.channels + 2) = c.blue) := by
  have hnb : ¬ (x < 0 ∨ y < 0 ∨ x ≥ b.width ∨ y ≥ b.height) := by omega
  refine ⟨?_, ?_, ?_⟩
  · simp only [plot, if_neg hnb, halpha, if_pos rfl]
    by_cases ha : c.alpha = b.tmax
    · simp [ha]
    · simp [ha]
  · intro hch
    have hl : b.layout = { gray := 0, alpha := -1, red := 0, green := 0, blue := 0 } := by
      rw [hch] at hlay
      exact (Except.ok.injEq _ _).mp hlay.symm
    simp only [plot, if_neg hnb, halpha, if_pos rfl, hl]
    by_cases ha : c.alpha = b.tmax <;>
      simp [ha, bufWrite]
  · intro hch
    have hl : b.layout = { gray := -1, alpha := -1, red := 0, green := 1, blue := 2 } := by
      rw [hch] at hlay
      exact (Except.ok.injEq _ _).mp hlay.symm
    simp only [plot, if_neg hnb, halpha, if_pos rfl, hl]
    by_cases ha : c.alpha = b.tmax <;>
      simp [ha, bufWrite]

/-- The concrete single-channel 1x1 container used by the C10 witness. -/
def bitmapBufExample : BitmapBuf :=
  { width := 1, height := 1, channels := 1,
    layout := { gray := 0, alpha := -1, red := 0, green := 0, blue := 0 },
    tmax := 255, buffer := fun _ => 0 }

/-- C10 witness: `plot_alpha_throw_after_mutation` on a 1x1 gray container
at `(0,0)` with the colour `(7,7,7)` carrying the non-default alpha 5: the
call throws, yet the gray sample now reads 7. -/
theorem plot_alpha_throw_after_mutation_witness :
    (0 : ℤ) ≤ 0 ∧
    ((((plot bitmapBufExample 0 0 ⟨7, 7, 7, 5⟩).2.isSome) ↔ (5 : ℕ) ≠ 255) ∧
    ((1 : ℤ) = 1 →
      (plot bitmapBufExample 0 0 ⟨7, 7, 7, 5⟩).1.buffer 0 = colorGray ⟨7, 7, 7, 5⟩) ∧
    ((1 : ℤ) = 3 →
      (plot bitmapBufExample 0 0 ⟨7, 7, 7, 5⟩).1.buffer 0 = 7 ∧
      (plot bitmapBufExample 0 0 ⟨7, 7, 7, 5⟩).1.buffer 1 = 7 ∧
      (plot bitmapBufExample 0 0 ⟨7, 7, 7, 5⟩).1.buffer 2 = 7)) := by
  refine ⟨le_rfl, ?_⟩
  have h := plot_alpha_throw_after_mutation bitmapBufExample 0 0 ⟨7, 7, 7, 5⟩
    rfl rfl (by decide) (by decide) (by decide) (by decide)
  exact h

/-! ### `BitmapData<T>::Get` and `operator-=` (claim C1)

`operator-=(const BitmapData& rhs)` loops `for (j = 0; j < _height; ++j)
for (i = 0; i < _width; ++i) Plot(i, j, Get(i, j) - rhs.Get(i, j))`, where
`Get(i, j) - rhs.Get(i, j)` is the wrapping `Color` subtraction embedded as
`colorSub`. -/

/-- `BitmapData<T>::GetRed`: `Buffer()[(y * _width + x) * _channels +
_redIndex]`. -/
def getRed (b : BitmapBuf) (x y : ℤ) : ℕ :=
  b.buffer ((y * b.width + x) * b.channels + b.layout.red)

/-- `BitmapData<T>::GetGreen`. -/
def getGreen (b : BitmapBuf) (x y : ℤ) : ℕ :=
  b.buffer ((y * b.width + x) * b.channels + b.layout.green)

/-- `BitmapData<T>::GetBlue`. -/
def getBlue (b : BitmapBuf) (x y : ℤ) : ℕ :=
  b.buffer ((y * b.width + x) * b.channels + b.layout.blue)

/-- `BitmapData<T>::GetAlpha`: the alpha sample when the container has an
alpha channel, otherwise `numeric_limits<T>::max()`. -/
def getAlpha (b : BitmapBuf) (x y : ℤ) : ℕ :=
  if b.layout.alpha ≠ -1 then b.buffer ((y * b.width + x) * b.channels + b.layout.alpha)
  else b.tmax

/-- `BitmapData<T>::GetGray`: the gray sample when the container has a gray
channel, otherwise `Get(x, y).Gray()` (the luma of the RGBA colour). -/
def getGray (b : BitmapBuf) (x y : ℤ) : ℕ :=
  if b.layout.gray ≠ -1 then b.buffer ((y * b.width + x) * b.channels + b.layout.gray)
  else colorGray ⟨getRed b x y, getGreen b x y, getBlue b x y, getAlpha b x y⟩

/-- `BitmapData<T>::Get(x, y)`: `Color(GetGray(x, y))` for a single-channel
container (the `Color(gray)` constructor sets red = green = blue = gray and
defaults alpha to `numeric_limits<T>::max()`), otherwise
`Color(GetRed, GetGreen, GetBlue, GetAlpha)`. -/
def getColor (b : BitmapBuf) (x y : ℤ) : ColorN :=
  if b.channels = 1 then ⟨getGray b x y, getGray b x y, getGray b x y, b.tmax⟩
  else ⟨getRed b x y, getGreen b x y, getBlue b x y, getAlpha b x y⟩

/-- The loop body of `operator-=`:
`Plot(i, j, Get(i, j) - rhs.Get(i, j))` for an unsigned sample type of bit
width `w` (the boolean result of `Plot` is discarded by the source too; for
layouts produced by `Init()` the alpha check never throws here, as `Get`
synthesises alpha = max on alpha-less containers and the subtraction keeps
the left alpha). -/
def subStep (w : ℕ) (src acc : BitmapBuf) (i j : ℤ) : BitmapBuf :=
  (plot acc i j (colorSub w (getColor acc i j) (getColor src i j))).1

/-- `BitmapData<T>::operator-=(rhs)`: the whole-buffer double loop, row by
row and column by column over the destination extent. -/
def bitmapSub (w : ℕ) (dst src : BitmapBuf) : BitmapBuf :=
  (intRange 0 (dst.height - 1)).foldl
    (fun acc j => (intRange 0 (dst.width - 1)).foldl (fun acc2 i => subStep w src acc2 i j) acc)
    dst

theorem layout_cases (b : BitmapBuf) (hlay : initLayout b.channels = .ok b.layout) :
    (b.channels = 1 ∧ b.layout = ⟨0, -1, 0, 0, 0⟩) ∨
    (b.channels = 3 ∧ b.layout = ⟨-1, -1, 0, 1, 2⟩) ∨
    (b.channels = 4 ∧ b.layout = ⟨-1, 0, 1, 2, 3⟩) := by
  unfold initLayout at hlay
  split_ifs at hlay with h1 h3 h4
  · exact Or.inl ⟨h1, by injection hlay with h; exact h.symm⟩
  · exact Or.inr (Or.inl ⟨h3, by injection hlay with h; exact h.symm⟩)
  · exact Or.inr (Or.inr ⟨h4, by injection hlay with h; exact h.symm⟩)

theorem subStep_preserves (w : ℕ) (src b : BitmapBuf) (i j : ℤ) :
    (subStep w src b i j).width = b.width ∧ (subStep w src b i j).height = b.height ∧
    (subStep w src b i j).channels = b.channels ∧ (subStep w src b i j).layout = b.layout ∧
    (subStep w src b i j).tmax = b.tmax := by
  simp only [subStep, plot, bufWrite]
  split_ifs <;> simp

theorem plot_written_gray (b : BitmapBuf) (x y : ℤ) (c : ColorN)
    (hl : b.layout = ⟨0, -1, 0, 0, 0⟩)
    (hin : ¬ (x < 0 ∨ y < 0 ∨ x ≥ b.width ∨ y ≥ b.height)) :
    (plot b x y c).1.buffer ((y * b.width + x) * b.channels) = colorGray c := by
  simp only [plot, if_neg hin, hl]
  by_cases ha : c.alpha = b.tmax <;> simp [ha, bufWrite]

theorem plot_written_rgb (b : BitmapBuf) (x y : ℤ) (c : ColorN)
    (hl : b.layout = ⟨-1, -1, 0, 1, 2⟩)
    (hin : ¬ (x < 0 ∨ y < 0 ∨ x ≥ b.width ∨ y ≥ b.height)) :
    (plot b x y c).1.buffer ((y * b.width + x) * b.channels) = c.red ∧
    (plot b x y c).1.buffer ((y * b.width + x) * b.channels + 1) = c.green ∧
    (plot b x y c).1.buffer ((y * b.width + x) * b.channels + 2) = c.blue := by
  simp only [plot, if_neg hin, hl]
  by_cases ha : c.alpha = b.tmax <;> simp [ha, bufWrite]

theorem plot_written_rgba (b : BitmapBuf) (x y : ℤ) (c : ColorN)
    (hl : b.layout = ⟨-1, 0, 1, 2, 3⟩)
    (hin : ¬ (x < 0 ∨ y < 0 ∨ x ≥ b.width ∨ y ≥ b.height)) :
    (plot b x y c).1.buffer ((y * b.width + x) * b.channels) = c.alpha ∧
    (plot b x y c).1.buffer ((y * b.width + x) * b.channels + 1) = c.red ∧
    (plot b x y c).1.buffer ((y * b.width + x) * b.channels + 2) = c.green ∧
    (plot b x y c).1.buffer ((y * b.width + x) * b.channels + 3) = c.blue := by
  simp only [plot, if_neg hin, hl]
  simp [bufWrite]

theorem subStep_frame (w : ℕ) (src b : BitmapBuf) (i j k : ℤ)
    (hlay : initLayout b.channels = .ok b.layout)
    (hk : k < (j * b.width + i) * b.channels ∨ (j * b.width + i) * b.channels + b.channels ≤ k) :
    (subStep w src b i j).buffer k = b.buffer k := by
  by_cases hin : i < 0 ∨ j < 0 ∨ i ≥ b.width ∨ j ≥ b.height
  · simp [subStep, plot, hin]
  · rcases layout_cases b hlay with ⟨hch, hl⟩ | ⟨hch, hl⟩ | ⟨hch, hl⟩
    · simp only [subStep, plot, if_neg hin, hl]
      set B := (j * b.width + i) * b.channels with hB
      have hne : ¬ (k = B + 0) := by omega
      have hne' : ¬ (k = B) := by omega
      by_cases ha : (colorSub w (getColor b i j) (getColor src i j)).alpha = b.tmax <;>
        simp [ha, bufWrite, hne, hne']
    · simp only [subStep, plot, if_neg hin, hl]
      set B := (j * b.width + i) * b.channels with hB
      have hne0 : ¬ (k = B) := by omega
      have hne1 : ¬ (k = B + 1) := by omega
      have hne2 : ¬ (k = B + 2) := by omega
      by_cases ha : (colorSub w (getColor b i j) (getColor src i j)).alpha = b.tmax <;>
        simp [ha, bufWrite, hne0, hne1, hne2]
    · simp only [subStep, plot, if_neg hin, hl]
      set B := (j * b.width + i) * b.channels with hB
      have hne0 : ¬ (k = B) := by omega
      have hne1 : ¬ (k = B + 1) := by omega
      have hne2 : ¬ (k = B + 2) := by omega
      have hne3 : ¬ (k = B + 3) := by omega
      simp [bufWrite, hne0, hne1, hne2, hne3]

theorem pixelIndex_injective (W x y q1 q2 : ℤ) (hW : 0 < W)
    (hx : 0 ≤ x) (hx2 : x < W) (hq : 0 ≤ q1) (hq2 : q1 < W)
    (he : y * W + x = q2 * W + q1) : x = q1 ∧ y = q2 := by
  have hd : (y - q2) * W = q1 - x := by linear_combination he
  by_cases hyq : y = q2
  · subst hyq
    constructor
    · have : (0 : ℤ) * W = q1 - x := by rw [← hd]; ring_nf
      simp at this
      omega
    · rfl
  · exfalso
    rcases lt_or_gt_of_ne hyq with h | h
    · have hmul : (y - q2) * W ≤ (-1) * W :=
        mul_le_mul_of_nonneg_right (by omega) hW.le
      have : (-1 : ℤ) * W = -W := by ring
      linarith
    · have hmul : (1 : ℤ) * W ≤ (y - q2) * W :=
        mul_le_mul_of_nonneg_right (by omega) hW.le
      have : (1 : ℤ) * W = W := by ring
      linarith

theorem pixel_footprint_disjoint (W c x y q1 q2 k : ℤ) (hc : 0 < c) (hW : 0 < W)
    (hx : 0 ≤ x) (hx2 : x < W) (hq : 0 ≤ q1) (hq2 : q1 < W)
    (hk : 0 ≤ k) (hk2 : k < c) (hne : ¬ (q1 = x ∧ q2 = y)) :
    (y * W + x) * c + k < (q2 * W + q1) * c ∨
      (q2 * W + q1) * c + c ≤ (y * W + x) * c + k := by
  have hlin : y * W + x ≠ q2 * W + q1 := by
    intro he
    obtain ⟨e1, e2⟩ := pixelIndex_injective W x y q1 q2 hW hx hx2 hq hq2 he
    exact hne ⟨e1.symm, e2.symm⟩
  rcases lt_or_gt_of_ne hlin with h | h
  · left
    have h1 : (y * W + x) + 1 ≤ q2 * W + q1 := Int.lt_iff_add_one_le.mp h
    have h2 : ((y * W + x) + 1) * c ≤ (q2 * W + q1) * c :=
      mul_le_mul_of_nonneg_right h1 hc.le
    have h3 : ((y * W + x) + 1) * c = (y * W + x) * c + c := by ring
    linarith
  · right
    have h1 : (q2 * W + q1) + 1 ≤ y * W + x := Int.lt_iff_add_one_le.mp h
    have h2 : ((q2 * W + q1) + 1) * c ≤ (y * W + x) * c :=
      mul_le_mul_of_nonneg_right h1 hc.le
    have h3 : ((q2 * W + q1) + 1) * c = (q2 * W + q1) * c + c := by ring
    linarith

theorem getColor_eq_of_agree (b b' : BitmapBuf) (x y : ℤ)
    (hw : b'.width = b.width) (hc : b'.channels = b.channels) (hl : b'.layout = b.layout)
    (ht : b'.tmax = b.tmax) (hlay : initLayout b.channels = .ok b.layout)
    (hagree : ∀ m : ℤ, 0 ≤ m → m < b.channels →
      b'.buffer ((y * b.width + x) * b.channels + m) =
        b.buffer ((y * b.width + x) * b.channels + m)) :
    getColor b' x y = getColor b x y := by
  rcases layout_cases b hlay with ⟨hch, hll⟩ | ⟨hch, hll⟩ | ⟨hch, hll⟩
  · have h0 := hagree 0 (by omega) (by omega)
    rw [add_zero] at h0
    simp only [hch, mul_one] at h0
    simp [getColor, getGray, hch, hc, hw, hl, hll, ht, h0]
  · have h0 := hagree 0 (by omega) (by omega)
    have h1 := hagree 1 (by omega) (by omega)
    have h2 := hagree 2 (by omega) (by omega)
    rw [add_zero] at h0
    rw [hch] at h0 h1 h2
    simp [getColor, getGray, getRed, getGreen, getBlue, getAlpha, hch, hc, hw, hl, hll,
      ht, h0, h1, h2]
  · have h0 := hagree 0 (by omega) (by omega)
    have h1 := hagree 1 (by omega) (by omega)
    have h2 := hagree 2 (by omega) (by omega)
    have h3 := hagree 3 (by omega) (by omega)
    rw [add_zero] at h0
    rw [hch] at h0 h1 h2 h3
    simp [getColor, getGray, getRed, getGreen, getBlue, getAlpha, hch, hc, hw, hl, hll,
      ht, h0, h1, h2, h3]

theorem subStep_agree (w : ℕ) (src b b' : BitmapBuf) (x y k : ℤ)
    (hw : b'.width = b.width) (hh : b'.height = b.height) (hc : b'.channels = b.channels)
    (hl : b'.layout = b.layout) (ht : b'.tmax = b.tmax)
    (hlay : initLayout b.channels = .ok b.layout)
    (hin : ¬ (x < 0 ∨ y < 0 ∨ x ≥ b.width ∨ y ≥ b.height))
    (hk0 : 0 ≤ k) (hkc : k < b.channels)
    (hagree : ∀ m : ℤ, 0 ≤ m → m < b.channels →
      b'.buffer ((y * b.width + x) * b.channels + m) =
        b.buffer ((y * b.width + x) * b.channels + m)) :
    (subStep w src b' x y).buffer ((y * b.width + x) * b.channels + k) =
      (subStep w src b x y).buffer ((y * b.width + x) * b.channels + k) := by
  have hcol := getColor_eq_of_agree b b' x y hw hc hl ht hlay hagree
  have hin' : ¬ (x < 0 ∨ y < 0 ∨ x ≥ b'.width ∨ y ≥ b'.height) := by
    rw [hw, hh]
    exact hin
  have hidx : (y * b.width + x) * b.channels = (y * b'.width + x) * b'.channels := by
    rw [hw, hc]
  rcases layout_cases b hlay with ⟨hch, hll⟩ | ⟨hch, hll⟩ | ⟨hch, hll⟩
  · have hk : k = 0 := by omega
    subst hk
    unfold subStep
    rw [hcol, add_zero]
    conv_lhs => rw [hidx]
    rw [plot_written_gray b' x y _ (by rw [hl, hll]) hin',
      plot_written_gray b x y _ hll hin]
  · have hk : k = 0 ∨ k = 1 ∨ k = 2 := by omega
    have hL := plot_written_rgb b' x y
      (colorSub w (getColor b x y) (getColor src x y)) (by rw [hl, hll]) hin'
    have hR := plot_written_rgb b x y
      (colorSub w (getColor b x y) (getColor src x y)) hll hin
    unfold subStep
    rw [hcol]
    rcases hk with hk | hk | hk <;> subst hk
    · rw [add_zero]
      conv_lhs => rw [hidx]
      rw [hL.1, hR.1]
    · conv_lhs => rw [hidx]
      rw [hL.2.1, hR.2.1]
    · conv_lhs => rw [hidx]
      rw [hL.2.2, hR.2.2]
  · have hk : k = 0 ∨ k = 1 ∨ k = 2 ∨ k = 3 := by omega
    have hL := plot_written_rgba b' x y
      (colorSub w (getColor b x y) (getColor src x y)) (by rw [hl, hll]) hin'
    have hR := plot_written_rgba b x y
      (colorSub w (getColor b x y) (getColor src x y)) hll hin
    unfold subStep
    rw [hcol]
    rcases hk with hk | hk | hk | hk <;> subst hk
    · rw [add_zero]
      conv_lhs => rw [hidx]
      rw [hL.1, hR.1]
    · conv_lhs => rw [hidx]
      rw [hL.2.1, hR.2.1]
    · conv_lhs => rw [hidx]
      rw [hL.2.2.1, hR.2.2.1]
    · conv_lhs => rw [hidx]
      rw [hL.2.2.2, hR.2.2.2]

theorem mem_intRange {a b v : ℤ} : v ∈ intRange a b ↔ a ≤ v ∧ v ≤ b := by
  unfold intRange
  simp only [List.mem_map, List.mem_range]
  constructor
  · rintro ⟨k, hk, rfl⟩
    omega
  · rintro ⟨h1, h2⟩
    exact ⟨(v - a).toNat, by omega, by omega⟩

theorem intRange_nodup (a b : ℤ) : (intRange a b).Nodup := by
  unfold intRange
  refine List.Nodup.map ?_ (List.nodup_range _)
  intro k1 k2 h
  simp only at h
  omega

/-- The pixel scan order of the `operator-=` loops: all `(i, j)` with
`0 ≤ i ≤ W - 1` and `0 ≤ j ≤ H - 1`, rows outermost. -/
def pixList (W H : ℤ) : List (ℤ × ℤ) :=
  (intRange 0 (H - 1)).bind (fun j => (intRange 0 (W - 1)).map (fun i => (i, j)))

theorem mem_pixList {W H : ℤ} {p : ℤ × ℤ} :
    p ∈ pixList W H ↔ 0 ≤ p.1 ∧ p.1 ≤ W - 1 ∧ 0 ≤ p.2 ∧ p.2 ≤ H - 1 := by
  unfold pixList
  simp only [List.mem_bind, List.mem_map, mem_intRange]
  constructor
  · rintro ⟨j, hj, i, hi, rfl⟩
    exact ⟨hi.1, hi.2, hj.1, hj.2⟩
  · rintro ⟨h1, h2, h3, h4⟩
    exact ⟨p.2, ⟨h3, h4⟩, p.1, ⟨h1, h2⟩, rfl⟩

theorem pixList_nodup (W H : ℤ) : (pixList W H).Nodup := by
  unfold pixList
  rw [List.nodup_bind]
  constructor
  · intro j _
    refine List.Nodup.map ?_ (intRange_nodup _ _)
    intro i1 i2 h
    exact congrArg Prod.fst h
  · refine (intRange_nodup 0 (H - 1)).imp ?_
    intro j1 j2 hne p hp1 hp2
    simp only [List.mem_map] at hp1 hp2
    obtain ⟨i1, _, rfl⟩ := hp1
    obtain ⟨i2, _, he⟩ := hp2
    exact hne (congrArg Prod.snd he).symm

theorem foldl_row_bind {α : Type} (cols : List ℤ) (f : α → ℤ → ℤ → α) :
    ∀ (rows : List ℤ) (init : α),
      rows.foldl (fun acc j => cols.foldl (fun a2 i => f a2 i j) acc) init =
        (rows.bind (fun j => cols.map (fun i => (i, j)))).foldl
          (fun a p => f a p.1 p.2) init := by
  intro rows
  induction rows with
  | nil => intro init; rfl
  | cons j T ih =>
      intro init
      simp only [List.foldl_cons, List.cons_bind, List.foldl_append, List.foldl_map]
      exact ih _

theorem foldl_subStep_preserves (w : ℕ) (src : BitmapBuf) :
    ∀ (L : List (ℤ × ℤ)) (b : BitmapBuf),
      (L.foldl (fun acc p => subStep w src acc p.1 p.2) b).width = b.width ∧
      (L.foldl (fun acc p => subStep w src acc p.1 p.2) b).height = b.height ∧
      (L.foldl (fun acc p => subStep w src acc p.1 p.2) b).channels = b.channels ∧
      (L.foldl (fun acc p => subStep w src acc p.1 p.2) b).layout = b.layout ∧
      (L.foldl (fun acc p => subStep w src acc p.1 p.2) b).tmax = b.tmax := by
  intro L
  induction L with
  | nil => intro b; exact ⟨rfl, rfl, rfl, rfl, rfl⟩
  | cons p T ih =>
      intro b
      have hs := subStep_preserves w src b p.1 p.2
      have hf := ih (subStep w src b p.1 p.2)
      simp only [List.foldl_cons]
      exact ⟨hf.1.trans hs.1, hf.2.1.trans hs.2.1, hf.2.2.1.trans hs.2.2.1,
        hf.2.2.2.1.trans hs.2.2.2.1, hf.2.2.2.2.trans hs.2.2.2.2⟩

theorem foldl_subStep_untouched (w : ℕ) (src : BitmapBuf) (x y k : ℤ) :
    ∀ (L : List (ℤ × ℤ)) (b : BitmapBuf),
      initLayout b.channels = .ok b.layout →
      (∀ q ∈ L, 0 ≤ q.1 ∧ q.1 < b.width ∧ 0 ≤ q.2 ∧ q.2 < b.height ∧
        ¬ (q.1 = x ∧ q.2 = y)) →
      0 ≤ x → x < b.width → 0 ≤ y → y < b.height → 0 ≤ k → k < b.channels →
      (L.foldl (fun acc p => subStep w src acc p.1 p.2) b).buffer
          ((y * b.width + x) * b.channels + k) =
        b.buffer ((y * b.width + x) * b.channels + k) := by
  intro L
  induction L with
  | nil => intro b _ _ _ _ _ _ _ _; rfl
  | cons q T ih =>
      obtain ⟨q1, q2⟩ := q
      intro b hlay hL hx1 hx2 hy1 hy2 hk1 hk2
      simp only [List.foldl_cons]
      have hq : 0 ≤ q1 ∧ q1 < b.width ∧ 0 ≤ q2 ∧ q2 < b.height ∧ ¬ (q1 = x ∧ q2 = y) :=
        hL (q1, q2) (List.mem_cons_self _ _)
      have hpres := subStep_preserves w src b q1 q2
      have hch_pos : 0 < b.channels := by
        rcases layout_cases b hlay with ⟨h, _⟩ | ⟨h, _⟩ | ⟨h, _⟩ <;> omega
      have hWpos : 0 < b.width := by omega
      have hlay' : initLayout (subStep w src b q1 q2).channels =
          .ok (subStep w src b q1 q2).layout := by
        rw [hpres.2.2.1, hpres.2.2.2.1]
        exact hlay
      have hL' : ∀ r ∈ T, 0 ≤ r.1 ∧ r.1 < (subStep w src b q1 q2).width ∧ 0 ≤ r.2 ∧
          r.2 < (subStep w src b q1 q2).height ∧ ¬ (r.1 = x ∧ r.2 = y) := by
        intro r hr
        rw [hpres.1, hpres.2.1]
        exact hL r (List.mem_cons_of_mem _ hr)
      have hu := ih (subStep w src b q1 q2) hlay' hL' hx1
        (by rw [hpres.1]; exact hx2) hy1 (by rw [hpres.2.1]; exact hy2) hk1
        (by rw [hpres.2.2.1]; exact hk2)
      rw [hpres.1, hpres.2.2.1] at hu
      rw [hu]
      exact subStep_frame w src b q1 q2 _ hlay
        (pixel_footprint_disjoint b.width b.channels x y q1 q2 k hch_pos hWpos
          hx1 hx2 hq.1 hq.2.1 hk1 hk2 hq.2.2.2.2)

theorem foldl_subStep_pixel (w : ℕ) (src : BitmapBuf) (x y k : ℤ) :
    ∀ (L : List (ℤ × ℤ)) (b : BitmapBuf),
      initLayout b.channels = .ok b.layout →
      (∀ q ∈ L, 0 ≤ q.1 ∧ q.1 < b.width ∧ 0 ≤ q.2 ∧ q.2 < b.height) →
      L.Nodup → (x, y) ∈ L → 0 ≤ k → k < b.channels →
      (L.foldl (fun acc p => subStep w src acc p.1 p.2) b).buffer
          ((y * b.width + x) * b.channels + k) =
        (subStep w src b x y).buffer ((y * b.width + x) * b.channels + k) := by
  intro L
  induction L with
  | nil => intro b _ _ _ hmem _ _; exact absurd hmem (List.not_mem_nil _)
  | cons q T ih =>
      obtain ⟨q1, q2⟩ := q
      intro b hlay hL hnd hmem hk1 hk2
      simp only [List.foldl_cons]
      have hxy : 0 ≤ x ∧ x < b.width ∧ 0 ≤ y ∧ y < b.height := hL (x, y) hmem
      have hq : 0 ≤ q1 ∧ q1 < b.width ∧ 0 ≤ q2 ∧ q2 < b.height :=
        hL (q1, q2) (List.mem_cons_self _ _)
      have hpres := subStep_preserves w src b q1 q2
      have hch_pos : 0 < b.channels := by
        rcases layout_cases b hlay with ⟨h, _⟩ | ⟨h, _⟩ | ⟨h, _⟩ <;> omega
      have hWpos : 0 < b.width := by omega
      have hlay' : initLayout (subStep w src b q1 q2).channels =
          .ok (subStep w src b q1 q2).layout := by
        rw [hpres.2.2.1, hpres.2.2.2.1]
        exact hlay
      by_cases hqe : q1 = x ∧ q2 = y
      · obtain ⟨rfl, rfl⟩ := hqe
        have hnotmem : (q1, q2) ∉ T := (List.nodup_cons.mp hnd).1
        have hL' : ∀ r ∈ T, 0 ≤ r.1 ∧ r.1 < (subStep w src b q1 q2).width ∧ 0 ≤ r.2 ∧
            r.2 < (subStep w src b q1 q2).height ∧ ¬ (r.1 = q1 ∧ r.2 = q2) := by
          intro r hr
          rw [hpres.1, hpres.2.1]
          refine ⟨(hL r (List.mem_cons_of_mem _ hr)).1, (hL r (List.mem_cons_of_mem _ hr)).2.1,
            (hL r (List.mem_cons_of_mem _ hr)).2.2.1, (hL r (List.mem_cons_of_mem _ hr)).2.2.2,
            ?_⟩
          rintro ⟨e1, e2⟩
          apply hnotmem
          have : r = (q1, q2) := Prod.ext e1 e2
          rw [← this]
          exact hr
        have hu := foldl_subStep_untouched w src q1 q2 k T (subStep w src b q1 q2) hlay' hL'
          hxy.1 (by rw [hpres.1]; exact hxy.2.1) hxy.2.2.1
          (by rw [hpres.2.1]; exact hxy.2.2.2) hk1 (by rw [hpres.2.2.1]; exact hk2)
        rw [hpres.1, hpres.2.2.1] at hu
        exact hu
      · have hndT := (List.nodup_cons.mp hnd).2
        have hL' : ∀ r ∈ T, 0 ≤ r.1 ∧ r.1 < (subStep w src b q1 q2).width ∧ 0 ≤ r.2 ∧
            r.2 < (subStep w src b q1 q2).height := by
          intro r hr
          rw [hpres.1, hpres.2.1]
          exact hL r (List.mem_cons_of_mem _ hr)
        have hmemT : (x, y) ∈ T := by
          rcases List.mem_cons.mp hmem with he | hm
          · exact absurd ⟨(congrArg Prod.fst he).symm, (congrArg Prod.snd he).symm⟩ hqe
          · exact hm
        have hih := ih (subStep w src b q1 q2) hlay' hL' hndT hmemT hk1
          (by rw [hpres.2.2.1]; exact hk2)
        rw [hpres.1, hpres.2.2.1] at hih
        rw [hih]
        exact subStep_agree w src b (subStep w src b q1 q2) x y k hpres.1 hpres.2.1
          hpres.2.2.1 hpres.2.2.2.1 hpres.2.2.2.2 hlay (by omega) hk1 hk2
          (fun m hm1 hm2 => subStep_frame w src b q1 q2 _ hlay
            (pixel_footprint_disjoint b.width b.channels x y q1 q2 m hch_pos hWpos
              hxy.1 hxy.2.1 hq.1 hq.2.1 hm1 hm2 hqe))

theorem bitmapSub_eq_foldl (w : ℕ) (dst src : BitmapBuf) :
    bitmapSub w dst src =
      (pixList dst.width dst.height).foldl (fun acc p => subStep w src acc p.1 p.2) dst := by
  unfold bitmapSub pixList
  exact foldl_row_bind (intRange 0 (dst.width - 1)) (fun acc i j => subStep w src acc i j)
    (intRange 0 (dst.height - 1)) dst

theorem bitmapSub_preserves (w : ℕ) (dst src : BitmapBuf) :
    (bitmapSub w dst src).width = dst.width ∧ (bitmapSub w dst src).height = dst.height ∧
    (bitmapSub w dst src).channels = dst.channels ∧
    (bitmapSub w dst src).layout = dst.layout ∧ (bitmapSub w dst src).tmax = dst.tmax := by
  rw [bitmapSub_eq_foldl]
  exact foldl_subStep_preserves w src (pixList dst.width dst.height) dst

/-- C1 (corrected): for an unsigned sample type of bit width `w` and colours
whose channels are in range, `a -= b` computes each of red/green/blue with
wrap-around (modulo `2 ^ w`) semantics, never clamping: when the subtrahend
channel is at most the minuend the result is the exact difference, and when
the subtrahend exceeds the minuend the result wraps to
`2 ^ w + minuend - subtrahend` (a value strictly above the minuend, not the
type minimum); alpha is unchanged.  BitmapData's whole-buffer `operator-=`
applies this same wrapping Color subtraction per pixel: for containers of
the same channel count (layouts as assigned by `Init()`), every in-bounds
pixel of the result holds the wrap-around difference of the corresponding
samples — the gray sample for 1-channel containers, the red/green/blue
samples for 3- and 4-channel containers, with the alpha sample of a
4-channel container rewritten unchanged. -/
theorem colorSub_wraps (w : ℕ) (a b : ColorN)
    (ha : ColorInRange w a) (hb : ColorInRange w b) :
    (((b.red ≤ a.red → (colorSub w a b).red = a.red - b.red) ∧
      (a.red < b.red → (colorSub w a b).red = 2 ^ w + a.red - b.red ∧
        a.red < (colorSub w a b).red)) ∧
    ((b.green ≤ a.green → (colorSub w a b).green = a.green - b.green) ∧
      (a.green < b.green → (colorSub w a b).green = 2 ^ w + a.green - b.green ∧
        a.green < (colorSub w a b).green)) ∧
    ((b.blue ≤ a.blue → (colorSub w a b).blue = a.blue - b.blue) ∧
      (a.blue < b.blue → (colorSub w a b).blue = 2 ^ w + a.blue - b.blue ∧
        a.blue < (colorSub w a b).blue)) ∧
    (colorSub w a b).alpha = a.alpha) ∧
    (∀ (dst src : BitmapBuf) (x y : ℤ),
      initLayout dst.channels = .ok dst.layout →
      initLayout src.channels = .ok src.layout →
      src.channels = dst.channels →
      0 ≤ x → x < dst.width → 0 ≤ y → y < dst.height →
      (dst.channels = 1 →
        getGray (bitmapSub w dst src) x y = wrapSub w (getGray dst x y) (getGray src x y)) ∧
      (dst.channels = 3 →
        getRed (bitmapSub w dst src) x y = wrapSub w (getRed dst x y) (getRed src x y) ∧
        getGreen (bitmapSub w dst src) x y = wrapSub w (getGreen dst x y) (getGreen src x y) ∧
        getBlue (bitmapSub w dst src) x y = wrapSub w (getBlue dst x y) (getBlue src x y)) ∧
      (dst.channels = 4 →
        getRed (bitmapSub w dst src) x y = wrapSub w (getRed dst x y) (getRed src x y) ∧
        getGreen (bitmapSub w dst src) x y = wrapSub w (getGreen dst x y) (getGreen src x y) ∧
        getBlue (bitmapSub w dst src) x y = wrapSub w (getBlue dst x y) (getBlue src x y) ∧
        getAlpha (bitmapSub w dst src) x y = getAlpha dst x y)) := by
  obtain ⟨har, hag, hab⟩ := ha
  obtain ⟨hbr, hbg, hbb⟩ := hb
  constructor
  · refine ⟨⟨?_, ?_⟩, ⟨?_, ?_⟩, ⟨?_, ?_⟩, rfl⟩ <;> intro h
    · show wrapSub w a.red b.red = _
      unfold wrapSub
      rw [show 2 ^ w + a.red - b.red = 2 ^ w + (a.red - b.red) by omega,
        Nat.add_mod_left, Nat.mod_eq_of_lt (by omega)]
    · have h1 : wrapSub w a.red b.red = 2 ^ w + a.red - b.red := by
        unfold wrapSub
        exact Nat.mod_eq_of_lt (by omega)
      exact ⟨h1, by rw [show (colorSub w a b).red = wrapSub w a.red b.red from rfl, h1]; omega⟩
    · show wrapSub w a.green b.green = _
      unfold wrapSub
      rw [show 2 ^ w + a.green - b.green = 2 ^ w + (a.green - b.green) by omega,
        Nat.add_mod_left, Nat.mod_eq_of_lt (by omega)]
    · have h1 : wrapSub w a.green b.green = 2 ^ w + a.green - b.green := by
        unfold wrapSub
        exact Nat.mod_eq_of_lt (by omega)
      refine ⟨h1, ?_⟩
      rw [show (colorSub w a b).green = wrapSub w a.green b.green from rfl, h1]
      omega
    · show wrapSub w a.blue b.blue = _
      unfold wrapSub
      rw [show 2 ^ w + a.blue - b.blue = 2 ^ w + (a.blue - b.blue) by omega,
        Nat.add_mod_left, Nat.mod_eq_of_lt (by omega)]
    · have h1 : wrapSub w a.blue b.blue = 2 ^ w + a.blue - b.blue := by
        unfold wrapSub
        exact Nat.mod_eq_of_lt (by omega)
      exact ⟨h1, by rw [show (colorSub w a b).blue = wrapSub w a.blue b.blue from rfl, h1]; omega⟩
  · intro dst src x y hlayd hlays hsc hx0 hxw hy0 hyh
    have hin : ¬ (x < 0 ∨ y < 0 ∨ x ≥ dst.width ∨ y ≥ dst.height) := by omega
    have hpres := bitmapSub_preserves w dst src
    have hmem : (x, y) ∈ pixList dst.width dst.height :=
      mem_pixList.mpr ⟨hx0, by omega, hy0, by omega⟩
    have hbounds : ∀ q ∈ pixList dst.width dst.height,
        0 ≤ q.1 ∧ q.1 < dst.width ∧ 0 ≤ q.2 ∧ q.2 < dst.height := by
      intro q hq
      have := mem_pixList.mp hq
      omega
    have hpix : ∀ k : ℤ, 0 ≤ k → k < dst.channels →
        (bitmapSub w dst src).buffer ((y * dst.width + x) * dst.channels + k) =
          (subStep w src dst x y).buffer ((y * dst.width + x) * dst.channels + k) := by
      intro k hk1 hk2
      rw [bitmapSub_eq_foldl]
      exact foldl_subStep_pixel w src x y k (pixList dst.width dst.height) dst hlayd hbounds
        (pixList_nodup _ _) hmem hk1 hk2
    refine ⟨?_, ?_, ?_⟩
    · intro hch
      have hl : dst.layout = ⟨0, -1, 0, 0, 0⟩ := by
        rcases layout_cases dst hlayd with ⟨_, h⟩ | ⟨h, _⟩ | ⟨h, _⟩
        · exact h
        · omega
        · omega
      have h1 : getColor dst x y =
          ⟨getGray dst x y, getGray dst x y, getGray dst x y, dst.tmax⟩ := by
        unfold getColor
        rw [if_pos hch]
      have h2 : getColor src x y =
          ⟨getGray src x y, getGray src x y, getGray src x y, src.tmax⟩ := by
        unfold getColor
        rw [if_pos (by omega : src.channels = 1)]
      have hget : getGray (bitmapSub w dst src) x y =
          (bitmapSub w dst src).buffer ((y * dst.width + x) * dst.channels + 0) := by
        unfold getGray
        rw [hpres.2.2.2.1, hl, hpres.1, hpres.2.2.1]
        simp
      rw [hget, hpix 0 (by omega) (by omega), add_zero]
      unfold subStep
      rw [plot_written_gray dst x y _ hl hin, h1, h2]
      simp [colorSub, colorGray]
    · intro hch
      have hl : dst.layout = ⟨-1, -1, 0, 1, 2⟩ := by
        rcases layout_cases dst hlayd with ⟨h, _⟩ | ⟨_, h⟩ | ⟨h, _⟩
        · omega
        · exact h
        · omega
      have h1 : getColor dst x y =
          ⟨getRed dst x y, getGreen dst x y, getBlue dst x y, getAlpha dst x y⟩ := by
        unfold getColor
        rw [if_neg (by omega : ¬ dst.channels = 1)]
      have h2 : getColor src x y =
          ⟨getRed src x y, getGreen src x y, getBlue src x y, getAlpha src x y⟩ := by
        unfold getColor
        rw [if_neg (by omega : ¬ src.channels = 1)]
      refine ⟨?_, ?_, ?_⟩
      · have hget : getRed (bitmapSub w dst src) x y =
            (bitmapSub w dst src).buffer ((y * dst.width + x) * dst.channels + 0) := by
          unfold getRed
          rw [hpres.2.2.2.1, hl, hpres.1, hpres.2.2.1]
        rw [hget, hpix 0 (by omega) (by omega), add_zero]
        unfold subStep
        rw [(plot_written_rgb dst x y _ hl hin).1, h1, h2]
        simp [colorSub]
      · have hget : getGreen (bitmapSub w dst src) x y =
            (bitmapSub w dst src).buffer ((y * dst.width + x) * dst.channels + 1) := by
          unfold getGreen
          rw [hpres.2.2.2.1, hl, hpres.1, hpres.2.2.1]
        rw [hget, hpix 1 (by omega) (by omega)]
        unfold subStep
        rw [(plot_written_rgb dst x y _ hl hin).2.1, h1, h2]
        simp [colorSub]
      · have hget : getBlue (bitmapSub w dst src) x y =
            (bitmapSub w dst src).buffer ((y * dst.width + x) * dst.channels + 2) := by
          unfold getBlue
          rw [hpres.2.2.2.1, hl, hpres.1, hpres.2.2.1]
        rw [hget, hpix 2 (by omega) (by omega)]
        unfold subStep
        rw [(plot_written_rgb dst x y _ hl hin).2.2, h1, h2]
        simp [colorSub]
    · intro hch
      have hl : dst.layout = ⟨-1, 0, 1, 2, 3⟩ := by
        rcases layout_cases dst hlayd with ⟨h, _⟩ | ⟨h, _⟩ | ⟨_, h⟩
        · omega
        · omega
        · exact h
      have h1 : getColor dst x y =
          ⟨getRed dst x y, getGreen dst x y, getBlue dst x y, getAlpha dst x y⟩ := by
        unfold getColor
        rw [if_neg (by omega : ¬ dst.channels = 1)]
      have h2 : getColor src x y =
          ⟨getRed src x y, getGreen src x y, getBlue src x y, getAlpha src x y⟩ := by
        unfold getColor
        rw [if_neg (by omega : ¬ src.channels = 1)]
      refine ⟨?_, ?_, ?_, ?_⟩
      · have hget : getRed (bitmapSub w dst src) x y =
            (bitmapSub w dst src).buffer ((y * dst.width + x) * dst.channels + 1) := by
          unfold getRed
          rw [hpres.2.2.2.1, hl, hpres.1, hpres.2.2.1]
        rw [hget, hpix 1 (by omega) (by omega)]
        unfold subStep
        rw [(plot_written_rgba dst x y _ hl hin).2.1, h1, h2]
        simp [colorSub]
      · have hget : getGreen (bitmapSub w dst src) x y =
            (bitmapSub w dst src).buffer ((y * dst.width + x) * dst.channels + 2) := by
          unfold getGreen
          rw [hpres.2.2.2.1, hl, hpres.1, hpres.2.2.1]
        rw [hget, hpix 2 (by omega) (by omega)]
        unfold subStep
        rw [(plot_written_rgba dst x y _ hl hin).2.2.1, h1, h2]
        simp [colorSub]
      · have hget : getBlue (bitmapSub w dst src) x y =
            (bitmapSub w dst src).buffer ((y * dst.width + x) * dst.channels + 3) := by
          unfold getBlue
          rw [hpres.2.2.2.1, hl, hpres.1, hpres.2.2.1]
        rw [hget, hpix 3 (by omega) (by omega)]
        unfold subStep
        rw [(plot_written_rgba dst x y _ hl hin).2.2.2, h1, h2]
        simp [colorSub]
      · have hget : getAlpha (bitmapSub w dst src) x y =
            (bitmapSub w dst src).buffer ((y * dst.width + x) * dst.channels + 0) := by
          unfold getAlpha
          rw [hpres.2.2.2.1, hl, hpres.1, hpres.2.2.1]
          simp
        rw [hget, hpix 0 (by omega) (by omega), add_zero]
        unfold subStep
        rw [(plot_written_rgba dst x y _ hl hin).1, h1, h2]
        simp [colorSub, getAlpha]

/-- C1 witness: `colorSub_wraps` applied to the ColorWrap test input
`(3,5,7) - (5,3,2)` over 8-bit channels. -/
theorem colorSub_wraps_witness :
    ColorInRange 8 ⟨3, 5, 7, 255⟩ ∧
    ((((5 ≤ 3 → (colorSub 8 ⟨3, 5, 7, 255⟩ ⟨5, 3, 2, 255⟩).red = 3 - 5) ∧
      (3 < 5 → (colorSub 8 ⟨3, 5, 7, 255⟩ ⟨5, 3, 2, 255⟩).red = 2 ^ 8 + 3 - 5 ∧
        3 < (colorSub 8 ⟨3, 5, 7, 255⟩ ⟨5, 3, 2, 255⟩).red)) ∧
    ((3 ≤ 5 → (colorSub 8 ⟨3, 5, 7, 255⟩ ⟨5, 3, 2, 255⟩).green = 5 - 3) ∧
      (5 < 3 → (colorSub 8 ⟨3, 5, 7, 255⟩ ⟨5, 3, 2, 255⟩).green = 2 ^ 8 + 5 - 3 ∧
        5 < (colorSub 8 ⟨3, 5, 7, 255⟩ ⟨5, 3, 2, 255⟩).green)) ∧
    ((2 ≤ 7 → (colorSub 8 ⟨3, 5, 7, 255⟩ ⟨5, 3, 2, 255⟩).blue = 7 - 2) ∧
      (7 < 2 → (colorSub 8 ⟨3, 5, 7, 255⟩ ⟨5, 3, 2, 255⟩).blue = 2 ^ 8 + 7 - 2 ∧
        7 < (colorSub 8 ⟨3, 5, 7, 255⟩ ⟨5, 3, 2, 255⟩).blue)) ∧
    (colorSub 8 ⟨3, 5, 7, 255⟩ ⟨5, 3, 2, 255⟩).alpha = 255) ∧
    (∀ (dst src : BitmapBuf) (x y : ℤ),
      initLayout dst.channels = .ok dst.layout →
      initLayout src.channels = .ok src.layout →
      src.channels = dst.channels →
      0 ≤ x → x < dst.width → 0 ≤ y → y < dst.height →
      (dst.channels = 1 →
        getGray (bitmapSub 8 dst src) x y = wrapSub 8 (getGray dst x y) (getGray src x y)) ∧
      (dst.channels = 3 →
        getRed (bitmapSub 8 dst src) x y = wrapSub 8 (getRed dst x y) (getRed src x y) ∧
        getGreen (bitmapSub 8 dst src) x y = wrapSub 8 (getGreen dst x y) (getGreen src x y) ∧
        getBlue (bitmapSub 8 dst src) x y = wrapSub 8 (getBlue dst x y) (getBlue src x y)) ∧
      (dst.channels = 4 →
        getRed (bitmapSub 8 dst src) x y = wrapSub 8 (getRed dst x y) (getRed src x y) ∧
        getGreen (bitmapSub 8 dst src) x y = wrapSub 8 (getGreen dst x y) (getGreen src x y) ∧
        getBlue (bitmapSub 8 dst src) x y = wrapSub 8 (getBlue dst x y) (getBlue src x y) ∧
        getAlpha (bitmapSub 8 dst src) x y = getAlpha dst x y))) := by
  refine ⟨by decide, ?_⟩
  exact colorSub_wraps 8 ⟨3, 5, 7, 255⟩ ⟨5, 3, 2, 255⟩ (by decide) (by decide)

end AcrionImage
